import Mathlib

/-!
Verification of the feature-queue coordination engine of the
Nexus autonomous-coding repository.

The definitions below are a shallow embedding of the feature store and the
queue/decomposition operations implemented in `src/mcp_server/feature_mcp.py`
(tools `feature_get_next`, `feature_mark_passing`, `feature_skip`,
`feature_mark_in_progress`, `feature_clear_in_progress`, `feature_create_bulk`,
`feature_decompose`, `feature_check_parent_completion`), the attempt-counter
functions of `src/progress.py`, and the `requeue` endpoint of
`src/server/routers/features.py`.  The SQLite table of `src/api/database.py`
becomes a list of `Feature` records; each SQLAlchemy query is translated to the
corresponding list operation; JSON error replies become explicit result
constructors.
-/

namespace Nexus

/-- One row of the `features` table (`src/api/database.py`, class `Feature`).
Timestamps (`last_attempt_at`, `added_at`) are omitted: no modelled operation
reads them.  The `parent_id` and `is_decomposed` columns are required by
`feature_mcp.py` (`feature_decompose`, `feature_get_next`) and by
`tests/test_feature_decomposition.py`; the copy of `database.py` under `src/`
predates them, so they are included here as the rest of the code uses them. -/
structure Feature where
  id : Nat
  priority : Int
  category : String
  name : String
  description : String
  steps : List String
  passes : Bool
  in_progress : Bool
  assigned_agent_id : Option String
  attempt_count : Nat
  parent_id : Option Nat
  is_decomposed : Bool
  source : String
  deriving Repr, DecidableEq

/-- The feature store: the rows of the table plus the next free primary key
(SQLite assigns ascending integer ids on insert). -/
structure FStore where
  features : List Feature
  nextId : Nat
  deriving Repr, DecidableEq

/-- `session.query(Feature).filter(Feature.id == fid).first()`. -/
def findFeature (s : FStore) (fid : Nat) : Option Feature :=
  s.features.find? (fun f => f.id == fid)

/-- Apply an update to the row whose id is `fid` (an ORM attribute
assignment followed by `session.commit()`). -/
def updateFeature (s : FStore) (fid : Nat) (upd : Feature → Feature) : FStore :=
  { s with features := s.features.map (fun f => if f.id == fid then upd f else f) }

/-- `SELECT max(priority)` over the whole table (`order_by(priority.desc()).first()`). -/
def listMax : List Int → Option Int
  | [] => none
  | p :: ps => some (ps.foldl max p)

def maxPriority (s : FStore) : Option Int :=
  listMax (s.features.map (fun f => f.priority))

/-- Row order used by `feature_get_next`: `(priority ASC, id ASC)`. -/
def keyLt (f g : Feature) : Bool :=
  f.priority < g.priority || (f.priority == g.priority && f.id < g.id)

def keyLe (f g : Feature) : Prop :=
  f.priority < g.priority ∨ (f.priority = g.priority ∧ f.id ≤ g.id)

instance (f g : Feature) : Decidable (keyLe f g) := by
  unfold keyLe; infer_instance

/-- First row of a query result ordered by `(priority ASC, id ASC)`:
the minimum of the list under `keyLt`. -/
def pickMin : List Feature → Option Feature
  | [] => none
  | f :: fs =>
    match pickMin fs with
    | none => some f
    | some g => if keyLt g f then some g else some f

/-- Eligibility filter of the main `feature_get_next` query:
`passes == False AND in_progress == False AND is_decomposed == False`. -/
def eligible (f : Feature) : Bool :=
  !f.passes && !f.in_progress && !f.is_decomposed

/-- Filter of the fallback `any_pending` query of `feature_get_next`:
`passes == False AND is_decomposed == False`. -/
def isPending (f : Feature) : Bool :=
  !f.passes && !f.is_decomposed

/-- Reply of `feature_get_next`: a feature row, the "all pending features are
currently being worked on" message, or the "all features are passing" message. -/
inductive GetNextResult
  | found (f : Feature)
  | allLocked
  | allPassing
  deriving Repr, DecidableEq

/-- `feature_get_next` (src/mcp_server/feature_mcp.py, lines 168-207). -/
def featureGetNext (s : FStore) : GetNextResult :=
  match pickMin (s.features.filter eligible) with
  | some f => .found f
  | none =>
    match s.features.filter isPending with
    | _ :: _ => .allLocked
    | [] => .allPassing

/-- Reply of `feature_mark_in_progress`. -/
inductive LockResult
  | ok (f : Feature)
  | notFound
  | alreadyPassing
  | alreadyInProgress
  deriving Repr, DecidableEq

/-- `feature_mark_in_progress` (src/mcp_server/feature_mcp.py, lines 358-392):
find the row, reject if `passes` or `in_progress`, otherwise set
`in_progress = True` and commit. -/
def featureMarkInProgress (s : FStore) (fid : Nat) : FStore × LockResult :=
  match findFeature s fid with
  | none => (s, .notFound)
  | some f =>
    if f.passes then (s, .alreadyPassing)
    else if f.in_progress then (s, .alreadyInProgress)
    else
      (updateFeature s fid (fun g => { g with in_progress := true }),
       .ok { f with in_progress := true })

/-- Reply of the operations that only report found / not found. -/
inductive BasicResult
  | ok
  | notFound
  deriving Repr, DecidableEq

/-- `feature_clear_in_progress` (src/mcp_server/feature_mcp.py, lines 395-423):
find the row and set `in_progress = False` unconditionally. -/
def featureClearInProgress (s : FStore) (fid : Nat) : FStore × BasicResult :=
  match findFeature s fid with
  | none => (s, .notFound)
  | some _ =>
    (updateFeature s fid (fun g => { g with in_progress := false }), .ok)

/-- Reply of `feature_skip`. -/
inductive SkipResult
  | ok (oldPriority newPriority : Int)
  | notFound
  | alreadyPassing
  deriving Repr, DecidableEq

/-- `feature_skip` (src/mcp_server/feature_mcp.py, lines 305-355):
reject when the feature passes, otherwise set its priority to
`max(priority) + 1` (1 when the table is empty) and clear `in_progress`. -/
def featureSkip (s : FStore) (fid : Nat) : FStore × SkipResult :=
  match findFeature s fid with
  | none => (s, .notFound)
  | some f =>
    if f.passes then (s, .alreadyPassing)
    else
      let newPriority : Int :=
        match maxPriority s with
        | some m => m + 1
        | none => 1
      (updateFeature s fid
         (fun g => { g with priority := newPriority, in_progress := false }),
       .ok f.priority newPriority)

/-- The update applied by `feature_mark_passing` to the target row:
`feature.passes = True; feature.in_progress = False`. -/
def setPassing (f : Feature) : Feature :=
  { f with passes := true, in_progress := false }

/-- The parent-completion cascade inside `feature_mark_passing`
(src/mcp_server/feature_mcp.py, lines 278-298): if the parent row exists and
`is_decomposed`, collect every row with that `parent_id`; when all of them pass
and the parent does not yet, mark the parent passing. -/
def parentCascade (s : FStore) (pid : Nat) : FStore :=
  match findFeature s pid with
  | none => s
  | some parent =>
    if parent.is_decomposed then
      let subs := s.features.filter (fun g => g.parent_id == some pid)
      if subs.all (fun g => g.passes) && !parent.passes then
        updateFeature s pid setPassing
      else s
    else s

/-- `feature_mark_passing` (src/mcp_server/feature_mcp.py, lines 245-302):
no precondition beyond existence; sets `passes = True`, `in_progress = False`,
then runs the parent-completion cascade when `parent_id` is set. -/
def featureMarkPassing (s : FStore) (fid : Nat) : FStore × BasicResult :=
  match findFeature s fid with
  | none => (s, .notFound)
  | some f =>
    let s1 := updateFeature s fid setPassing
    match f.parent_id with
    | some pid => (parentCascade s1 pid, .ok)
    | none => (s1, .ok)

/-- Reply of `feature_check_parent_completion`. -/
inductive CheckParentResult
  | done (passing total : Nat)
  | notFound
  | notDecomposed
  | noSubFeatures
  deriving Repr, DecidableEq

/-- `feature_check_parent_completion` (src/mcp_server/feature_mcp.py, lines
632-695): errors when the parent is missing, not decomposed, or has no
sub-features; otherwise marks the parent passing exactly when every sub-feature
passes and the parent does not yet. -/
def featureCheckParentCompletion (s : FStore) (pid : Nat) :
    FStore × CheckParentResult :=
  match findFeature s pid with
  | none => (s, .notFound)
  | some parent =>
    if !parent.is_decomposed then (s, .notDecomposed)
    else
      let subs := s.features.filter (fun g => g.parent_id == some pid)
      if subs.isEmpty then (s, .noSubFeatures)
      else
        let passing := (subs.filter (fun g => g.passes)).length
        let total := subs.length
        if subs.all (fun g => g.passes) && !parent.passes then
          (updateFeature s pid setPassing, .done passing total)
        else (s, .done passing total)

/-- Input item of `feature_create_bulk` (category, name, description, steps);
modelling the validated dictionaries. -/
structure FeatureCreateItem where
  category : String
  name : String
  description : String
  steps : List String
  deriving Repr, DecidableEq

/-- The rows inserted by `feature_create_bulk`: priorities `start, start+1, …`
in list order, ids assigned ascending by the database, `passes = False` and the
column defaults (`in_progress = False`, `source = "initializer"`,
`attempt_count = 0`). -/
def mkBulkFeatures (startPriority : Int) (startId : Nat) :
    List FeatureCreateItem → List Feature
  | [] => []
  | it :: rest =>
    { id := startId, priority := startPriority, category := it.category,
      name := it.name, description := it.description, steps := it.steps,
      passes := false, in_progress := false, assigned_agent_id := none,
      attempt_count := 0, parent_id := none, is_decomposed := false,
      source := "initializer" } ::
    mkBulkFeatures (startPriority + 1) (startId + 1) rest

/-- `feature_create_bulk` (src/mcp_server/feature_mcp.py, lines 426-480):
starting priority is `max(priority) + 1` (1 when the table is empty); feature
`i` of the list gets priority `start + i`. -/
def featureCreateBulk (s : FStore) (items : List FeatureCreateItem) : FStore :=
  let startPriority : Int :=
    match maxPriority s with
    | some m => m + 1
    | none => 1
  { features := s.features ++ mkBulkFeatures startPriority s.nextId items,
    nextId := s.nextId + items.length }

/-- Input item of `feature_decompose` (name, description, steps of one
sub-feature); modelling the validated dictionaries. -/
structure SubFeatureItem where
  name : String
  description : String
  steps : List String
  deriving Repr, DecidableEq

/-- Reply of `feature_decompose`. -/
inductive DecomposeResult
  | ok (subIds : List Nat)
  | notFound
  | alreadyPassing
  | alreadyDecomposed
  | tooFewSubFeatures
  | emptySteps
  deriving Repr, DecidableEq

def DecomposeResult.isOk : DecomposeResult → Bool
  | .ok _ => true
  | _ => false

/-- The child rows inserted by `feature_decompose`: child `i` gets priority
`parent.priority + 1 + i`, the parent's category, `parent_id = parent.id`,
`source = "decomposed"`, `passes = False`, and an ascending fresh id. -/
def mkChildren (parent : Feature) (startId : Nat) (i : Nat) :
    List SubFeatureItem → List Feature
  | [] => []
  | sf :: rest =>
    { id := startId + i, priority := parent.priority + 1 + (i : Int),
      category := parent.category, name := sf.name,
      description := sf.description, steps := sf.steps,
      passes := false, in_progress := false, assigned_agent_id := none,
      attempt_count := 0, parent_id := some parent.id, is_decomposed := false,
      source := "decomposed" } ::
    mkChildren parent startId (i + 1) rest

/-- `feature_decompose` (src/mcp_server/feature_mcp.py, lines 483-629).
Rejections, in source order: parent missing, parent already passing, parent
already decomposed, fewer than 2 sub-features, a sub-feature with an empty
steps list.  Otherwise: shift every row with `priority > parent.priority` and
`id != parent.id` by `+ len(sub_features)`, insert the children right after the
parent's priority, and set the parent `is_decomposed = True`,
`in_progress = False`, `attempt_count = 0` in one transaction. -/
def featureDecompose (s : FStore) (fid : Nat) (subs : List SubFeatureItem) :
    FStore × DecomposeResult :=
  match findFeature s fid with
  | none => (s, .notFound)
  | some parent =>
    if parent.passes then (s, .alreadyPassing)
    else if parent.is_decomposed then (s, .alreadyDecomposed)
    else if subs.length < 2 then (s, .tooFewSubFeatures)
    else if subs.any (fun sf => sf.steps.isEmpty) then (s, .emptySteps)
    else
      let n := subs.length
      let shifted := s.features.map (fun g =>
        if decide (parent.priority < g.priority) && g.id != fid then
          { g with priority := g.priority + (n : Int) }
        else g)
      let parentDone := shifted.map (fun g =>
        if g.id == fid then
          { g with is_decomposed := true, in_progress := false,
                   attempt_count := 0 }
        else g)
      let children := mkChildren parent s.nextId 0 subs
      ({ features := parentDone ++ children, nextId := s.nextId + n },
       .ok (children.map (fun c => c.id)))

/-- `requeue_feature` (src/server/routers/features.py, lines 500-542):
clears `passes`, `in_progress` and the assignment, and increments the row's
`attempt_count`. -/
def requeueFeature (s : FStore) (fid : Nat) : FStore × BasicResult :=
  match findFeature s fid with
  | none => (s, .notFound)
  | some _ =>
    (updateFeature s fid (fun g =>
       { g with passes := false, in_progress := false,
                assigned_agent_id := none,
                attempt_count := g.attempt_count + 1 }), .ok)

/-! ### Stuck detection (src/progress.py)

The attempt counter is the JSON object stored in the `.feature_attempts`
side-file: a Python dict `feature_id → count`.  A dict preserves insertion
order, so it is embedded as an association list with unique keys. -/

/-- The parsed `.feature_attempts` map, in dict iteration order. -/
abbrev AttemptCounter := List (Nat × Nat)

/-- Default of `MAX_FEATURE_ATTEMPTS` (src/progress.py, line 22; the
environment variable `NEXUS_MAX_FEATURE_ATTEMPTS` can override it). -/
def MAX_FEATURE_ATTEMPTS : Nat := 3

/-- `attempts[key] = attempts.get(key, 0) + 1`: bump the existing entry in
place (dict order preserved) or append a new entry with count 1. -/
def bumpAttempt : AttemptCounter → Nat → AttemptCounter
  | [], fid => [(fid, 1)]
  | (k, v) :: rest, fid =>
    if k = fid then (k, v + 1) :: rest else (k, v) :: bumpAttempt rest fid

/-- `record_feature_attempt` (src/progress.py, lines 664-692): increment and
return the new count. -/
def recordFeatureAttempt (c : AttemptCounter) (fid : Nat) :
    AttemptCounter × Nat :=
  let c' := bumpAttempt c fid
  (c', (((c'.find? (fun e => e.1 == fid)).map (fun e => e.2)).getD 0))

/-- `clear_feature_attempt` (src/progress.py, lines 695-715): delete the entry. -/
def clearFeatureAttempt (c : AttemptCounter) (fid : Nat) : AttemptCounter :=
  c.filter (fun e => e.1 ≠ fid)

/-- `check_stuck_detection` (src/progress.py, lines 718-744): true when some
entry's count has reached `threshold`. -/
def checkStuckDetection (threshold : Nat) (c : AttemptCounter) : Bool :=
  c.any (fun e => threshold ≤ e.2)

/-- `get_stuck_feature_id` (src/progress.py, lines 747-768): the key of the
first entry, in dict iteration order, whose count has reached `threshold`. -/
def getStuckFeatureId (threshold : Nat) (c : AttemptCounter) : Option Nat :=
  (c.find? (fun e => threshold ≤ e.2)).map (fun e => e.1)

/-! ### Concurrent calls of `feature_mark_in_progress`

`feature_mark_in_progress` is an ORM read (`session.query … .first()`),
Python-side checks of `passes` / `in_progress`, and only then an attribute
write committed by `session.commit()` (src/mcp_server/feature_mcp.py, lines
375-387).  Nothing orders the read of one call before the write of another, so
a call is modelled as two atomic steps against the shared store: the
read-and-check, and the write. -/

/-- Progress of one in-flight `feature_mark_in_progress` call: not yet read,
read and validated (about to write), or returned (`success = true` for the
updated-feature reply, `false` for any error reply). -/
inductive LockPhase
  | start
  | validated
  | returned (success : Bool)
  deriving Repr, DecidableEq

/-- The read-and-check step: lines 375-384. -/
def lockRead (s : FStore) (fid : Nat) : LockPhase :=
  match findFeature s fid with
  | none => .returned false
  | some f =>
    if f.passes then .returned false
    else if f.in_progress then .returned false
    else .validated

/-- One step of one caller: read-and-check, then write-and-commit
(lines 386-387). -/
def lockStep (s : FStore) (p : LockPhase) (fid : Nat) : FStore × LockPhase :=
  match p with
  | .start => (s, lockRead s fid)
  | .validated =>
    (updateFeature s fid (fun g => { g with in_progress := true }),
     .returned true)
  | .returned b => (s, .returned b)

/-- Two callers A and B of `feature_mark_in_progress` on the same id, plus the
shared store. -/
structure TwoCallers where
  store : FStore
  a : LockPhase
  b : LockPhase
  deriving Repr, DecidableEq

/-- Run an interleaving: `true` schedules a step of caller A, `false` one of
caller B. -/
def runLockSchedule (fid : Nat) : List Bool → TwoCallers → TwoCallers
  | [], st => st
  | c :: cs, st =>
    if c then
      let r := lockStep st.store st.a fid
      runLockSchedule fid cs { st with store := r.1, a := r.2 }
    else
      let r := lockStep st.store st.b fid
      runLockSchedule fid cs { st with store := r.1, b := r.2 }

/-! ### Sequences of queue-API operations -/

/-- One queue-API operation, as listed in the spec's §6 Queue API plus the
router's requeue endpoint. -/
inductive Op
  | dequeue
  | lock (fid : Nat)
  | unlock (fid : Nat)
  | skip (fid : Nat)
  | markPassing (fid : Nat)
  | decompose (fid : Nat) (subs : List SubFeatureItem)
  | bulkCreate (items : List FeatureCreateItem)
  | requeue (fid : Nat)
  deriving Repr, DecidableEq

/-- The store after one operation (`feature_get_next` reads only). -/
def applyOp (s : FStore) : Op → FStore
  | .dequeue => s
  | .lock fid => (featureMarkInProgress s fid).1
  | .unlock fid => (featureClearInProgress s fid).1
  | .skip fid => (featureSkip s fid).1
  | .markPassing fid => (featureMarkPassing s fid).1
  | .decompose fid subs => (featureDecompose s fid subs).1
  | .bulkCreate items => featureCreateBulk s items
  | .requeue fid => (requeueFeature s fid).1

/-- The store after a sequence of operations. -/
def runOps (s : FStore) : List Op → FStore
  | [] => s
  | op :: ops => runOps (applyOp s op) ops

/-- Well-formed store: primary keys are distinct and below the next free id. -/
def WfStore (s : FStore) : Prop :=
  (s.features.map (fun f => f.id)).Nodup ∧
  ∀ f ∈ s.features, f.id < s.nextId

instance (s : FStore) : Decidable (WfStore s) := by
  unfold WfStore; infer_instance

/-! ### Concrete stores used to instantiate the theorems -/

/-- A concrete feature row for instantiating theorems. -/
def mkTestFeature (i : Nat) (pr : Int) (p ip dec : Bool) (par : Option Nat) :
    Feature :=
  { id := i, priority := pr, category := "ui", name := "feature",
    description := "test feature", steps := ["step"], passes := p,
    in_progress := ip, assigned_agent_id := none, attempt_count := 0,
    parent_id := par, is_decomposed := dec, source := "initializer" }

/-- Three pending features at priorities 3, 1, 2. -/
def w1Store : FStore :=
  ⟨[mkTestFeature 1 3 false false false none,
    mkTestFeature 2 1 false false false none,
    mkTestFeature 3 2 false false false none], 4⟩

/-- The priority-1 row of `w1Store`. -/
def w1Feat : Feature := mkTestFeature 2 1 false false false none

/-- Parent at priority 2 between two other features. -/
def w2Store : FStore :=
  ⟨[mkTestFeature 1 1 false false false none,
    mkTestFeature 2 2 false false false none,
    mkTestFeature 3 3 false false false none], 4⟩

/-- The parent row of `w2Store`. -/
def w2Parent : Feature := mkTestFeature 2 2 false false false none

/-- Two sub-features for decomposition. -/
def w2Subs : List SubFeatureItem :=
  [⟨"login form", "build the form", ["create form"]⟩,
   ⟨"session", "manage session", ["create context"]⟩]

/-- A single unlocked pending feature, target of the concurrent lock calls. -/
def w3Store : FStore := ⟨[mkTestFeature 1 1 false false false none], 2⟩

/-- A decomposed parent (id 1) with a passing child (id 2) and a pending
child (id 3). -/
def w6Store : FStore :=
  ⟨[mkTestFeature 1 1 false false true none,
    mkTestFeature 2 2 true false false (some 1),
    mkTestFeature 3 3 false false false (some 1)], 4⟩

/-- The parent row of `w6Store`. -/
def w6Parent : Feature := mkTestFeature 1 1 false false true none

/-- The still-pending child row of `w6Store`. -/
def w6Child : Feature := mkTestFeature 3 3 false false false (some 1)

/-- A store with a single feature that already passes. -/
def w7Store : FStore := ⟨[mkTestFeature 1 1 true false false none], 2⟩

/-- The passing feature of `w7Store`. -/
def w7Feat : Feature := mkTestFeature 1 1 true false false none

/-- A store with the passing feature 1 and a pending feature 2. -/
def w7bStore : FStore :=
  ⟨[mkTestFeature 1 1 true false false none,
    mkTestFeature 2 2 false false false none], 3⟩

/-- An attempt counter where feature 7 has 2 attempts. -/
def w8Counter : AttemptCounter := [(7, 2)]

/-! ### Helper lemmas: the `(priority ASC, id ASC)` order and `pickMin` -/

theorem keyLe_refl (f : Feature) : keyLe f f := Or.inr ⟨rfl, le_refl _⟩

theorem keyLe_trans {f g h : Feature} (h₁ : keyLe f g) (h₂ : keyLe g h) :
    keyLe f h := by
  rcases h₁ with h₁ | ⟨h₁, h₁'⟩ <;> rcases h₂ with h₂ | ⟨h₂, h₂'⟩ <;>
    unfold keyLe <;> omega

theorem keyLe_of_keyLt {f g : Feature} (h : keyLt f g = true) : keyLe f g := by
  simp only [keyLt, Bool.or_eq_true, Bool.and_eq_true, decide_eq_true_eq,
    beq_iff_eq] at h
  unfold keyLe; omega

theorem keyLe_of_not_keyLt {f g : Feature} (h : keyLt g f = false) : keyLe f g := by
  simp only [keyLt, Bool.or_eq_false_iff, Bool.and_eq_false_iff,
    decide_eq_false_iff_not, beq_eq_false_iff_ne, ne_eq] at h
  unfold keyLe
  rcases h with ⟨h₁, h₂ | h₂⟩ <;> omega

theorem pickMin_mem {l : List Feature} {f : Feature} (h : pickMin l = some f) :
    f ∈ l := by
  induction l generalizing f with
  | nil => simp [pickMin] at h
  | cons a l ih =>
    cases hm : pickMin l with
    | none =>
      simp only [pickMin, hm, Option.some.injEq] at h
      simp [← h]
    | some g =>
      simp only [pickMin, hm] at h
      by_cases hlt : keyLt g a = true
      · rw [if_pos hlt] at h
        simp only [Option.some.injEq] at h
        exact List.mem_cons_of_mem _ (h ▸ ih hm)
      · rw [if_neg hlt] at h
        simp only [Option.some.injEq] at h
        simp [← h]

theorem pickMin_eq_none {l : List Feature} (h : pickMin l = none) : l = [] := by
  cases l with
  | nil => rfl
  | cons a l =>
    cases hm : pickMin l with
    | none => simp [pickMin, hm] at h
    | some g =>
      simp only [pickMin, hm] at h
      by_cases hlt : keyLt g a = true
      · rw [if_pos hlt] at h; simp at h
      · rw [if_neg hlt] at h; simp at h

theorem pickMin_le {l : List Feature} {f : Feature} (h : pickMin l = some f) :
    ∀ g ∈ l, keyLe f g := by
  induction l generalizing f with
  | nil => simp [pickMin] at h
  | cons a l ih =>
    cases hm : pickMin l with
    | none =>
      simp only [pickMin, hm, Option.some.injEq] at h
      have hl : l = [] := pickMin_eq_none hm
      subst hl
      intro g hg
      simp only [List.mem_singleton] at hg
      subst hg
      rw [← h]
      exact keyLe_refl _
    | some g =>
      simp only [pickMin, hm] at h
      by_cases hlt : keyLt g a = true
      · rw [if_pos hlt] at h
        simp only [Option.some.injEq] at h
        subst h
        intro x hx
        rcases List.mem_cons.mp hx with hx | hx
        · subst hx; exact keyLe_of_keyLt hlt
        · exact ih hm x hx
      · rw [if_neg hlt] at h
        simp only [Option.some.injEq] at h
        subst h
        intro x hx
        rcases List.mem_cons.mp hx with hx | hx
        · subst hx; exact keyLe_refl _
        · have hle : keyLe a g :=
            keyLe_of_not_keyLt (Bool.not_eq_true _ ▸ hlt)
          exact keyLe_trans hle (ih hm x hx)

/-! ### Helper lemmas: lookups and updates -/

theorem find?_id_map (l : List Feature) (F : Feature → Feature)
    (hF : ∀ g, (F g).id = g.id) (fid : Nat) :
    (l.map F).find? (fun f => f.id == fid) =
      (l.find? (fun f => f.id == fid)).map F := by
  induction l with
  | nil => rfl
  | cons a l ih =>
    by_cases ha : (a.id == fid) = true
    · rw [List.map_cons, List.find?_cons_of_pos, List.find?_cons_of_pos]
      · rfl
      · exact ha
      · rw [hF]; exact ha
    · rw [List.map_cons, List.find?_cons_of_neg, List.find?_cons_of_neg]
      · exact ih
      · exact ha
      · rw [hF]; exact ha

theorem find?_append_left {p : Feature → Bool} {l₁ l₂ : List Feature}
    {a : Feature} (h : l₁.find? p = some a) : (l₁ ++ l₂).find? p = some a := by
  induction l₁ with
  | nil => simp [List.find?] at h
  | cons b l ih =>
    by_cases hb : p b = true
    · rw [List.find?_cons_of_pos _ hb] at h
      rw [List.cons_append, List.find?_cons_of_pos _ hb]
      exact h
    · rw [List.find?_cons_of_neg _ hb] at h
      rw [List.cons_append, List.find?_cons_of_neg _ hb]
      exact ih h

theorem findFeature_updateFeature (s : FStore) (fid fid' : Nat)
    (u : Feature → Feature) (hu : ∀ g, (u g).id = g.id) :
    findFeature (updateFeature s fid' u) fid =
      (findFeature s fid).map (fun f => if f.id == fid' then u f else f) := by
  unfold findFeature updateFeature
  exact find?_id_map _ _ (fun g => by split <;> simp [hu]) fid

theorem findFeature_some_id {s : FStore} {fid : Nat} {f : Feature}
    (h : findFeature s fid = some f) : f.id = fid := by
  have := List.find?_some h
  simpa using this

theorem findFeature_mem {s : FStore} {fid : Nat} {f : Feature}
    (h : findFeature s fid = some f) : f ∈ s.features :=
  List.mem_of_find?_eq_some h

theorem mem_updateFeature_elim {s : FStore} {fid : Nat} {u : Feature → Feature}
    {g : Feature} (h : g ∈ (updateFeature s fid u).features) :
    ∃ g₀ ∈ s.features, g = if g₀.id == fid then u g₀ else g₀ := by
  unfold updateFeature at h
  simp only [List.mem_map] at h
  obtain ⟨g₀, hg₀, heq⟩ := h
  exact ⟨g₀, hg₀, heq.symm⟩

theorem mem_updateFeature_intro {s : FStore} {fid : Nat} {u : Feature → Feature}
    {g : Feature} (h : g ∈ s.features) :
    (if g.id == fid then u g else g) ∈ (updateFeature s fid u).features := by
  unfold updateFeature
  exact List.mem_map.mpr ⟨g, h, rfl⟩

theorem updateFeature_ids (s : FStore) (fid : Nat) (u : Feature → Feature)
    (hu : ∀ g, (u g).id = g.id) :
    (updateFeature s fid u).features.map (fun f => f.id) =
      s.features.map (fun f => f.id) := by
  unfold updateFeature
  rw [List.map_map]
  apply List.map_congr_left
  intro g _
  dsimp only [Function.comp]
  split <;> simp [hu]

theorem updateFeature_nextId (s : FStore) (fid : Nat) (u : Feature → Feature) :
    (updateFeature s fid u).nextId = s.nextId := rfl

/-- Rows eligible for dequeue are in particular pending. -/
theorem isPending_of_eligible {f : Feature} (h : eligible f = true) :
    isPending f = true := by
  simp only [eligible, Bool.and_eq_true] at h
  simp [isPending, h.1.1, h.2]

/-! ### C1: `feature_get_next` -/

/-- C1.  `feature_get_next` returns a feature with `passes=false`,
`in_progress=false`, `is_decomposed=false` that is least in
`(priority ASC, id ASC)` order among all such features; when none exists it
returns the distinct "all locked" signal exactly when some feature with
`passes=false` and `is_decomposed=false` remains, and the "all passing"
(empty) signal exactly when none remains. -/
theorem dequeue_returns_least_pending (s : FStore) :
    (∀ f, featureGetNext s = .found f →
      f ∈ s.features ∧ eligible f = true ∧
        ∀ g ∈ s.features, eligible g = true → keyLe f g) ∧
    (featureGetNext s = .allLocked ↔
      (∀ g ∈ s.features, eligible g = false) ∧
        ∃ g ∈ s.features, isPending g = true) ∧
    (featureGetNext s = .allPassing ↔
      ∀ g ∈ s.features, isPending g = false) := by
  unfold featureGetNext
  cases hm : pickMin (s.features.filter eligible) with
  | some f =>
    have hmem := pickMin_mem hm
    rw [List.mem_filter] at hmem
    refine ⟨?_, ?_, ?_⟩
    · intro f' hf'
      simp only [Option.some.injEq, GetNextResult.found.injEq] at hf'
      subst hf'
      refine ⟨hmem.1, hmem.2, ?_⟩
      intro g hg hge
      exact pickMin_le hm g (List.mem_filter.mpr ⟨hg, hge⟩)
    · simp only [reduceCtorEq, false_iff, not_and, not_exists]
      intro hall
      exact absurd (hall f hmem.1) (by simp [hmem.2])
    · simp only [reduceCtorEq, false_iff, not_forall]
      exact ⟨f, hmem.1, by simp [isPending_of_eligible hmem.2]⟩
  | none =>
    have hel : ∀ g ∈ s.features, eligible g = false := by
      intro g hg
      have hnil := pickMin_eq_none hm
      by_contra hne
      have : g ∈ s.features.filter eligible :=
        List.mem_filter.mpr ⟨hg, by simpa using hne⟩
      rw [hnil] at this
      exact absurd this (List.not_mem_nil g)
    cases hp : s.features.filter isPending with
    | nil =>
      have hpe : ∀ g ∈ s.features, isPending g = false := by
        intro g hg
        by_contra hne
        have : g ∈ s.features.filter isPending :=
          List.mem_filter.mpr ⟨hg, by simpa using hne⟩
        rw [hp] at this
        exact absurd this (List.not_mem_nil g)
      refine ⟨by simp, ?_, ?_⟩
      · simp only [reduceCtorEq, false_iff, not_and, not_exists]
        intro _ g hg
        simp [hpe g hg]
      · simpa using hpe
    | cons w ws =>
      have hw : w ∈ s.features.filter isPending := by
        rw [hp]; exact List.mem_cons_self w ws
      rw [List.mem_filter] at hw
      refine ⟨by simp, ?_, ?_⟩
      · simp only [true_iff]
        exact ⟨hel, w, hw.1, hw.2⟩
      · simp only [reduceCtorEq, false_iff, not_forall]
        exact ⟨w, hw.1, by simp [hw.2]⟩

/-- C1 instantiated: in a store of three pending features at priorities
3, 1, 2 the dequeued feature is the priority-1 row, and it is minimal. -/
theorem dequeue_returns_least_pending_witness :
    featureGetNext w1Store = .found w1Feat ∧
    (w1Feat ∈ w1Store.features ∧ eligible w1Feat = true ∧
      ∀ g ∈ w1Store.features, eligible g = true → keyLe w1Feat g) :=
  ⟨by decide, (dequeue_returns_least_pending w1Store).1 w1Feat (by decide)⟩

/-! ### C4: `feature_mark_in_progress`, sequential semantics -/

/-- C4.  The lock succeeds exactly when the feature exists with
`passes=false` and `in_progress=false`; on success the stored row has
`in_progress=true`; on any error reply the store is unchanged. -/
theorem lock_succeeds_iff_unlocked_pending (s : FStore) (fid : Nat) :
    ((∃ f', (featureMarkInProgress s fid).2 = LockResult.ok f') ↔
      (∃ f, findFeature s fid = some f ∧ f.passes = false ∧
        f.in_progress = false)) ∧
    (∀ f', (featureMarkInProgress s fid).2 = LockResult.ok f' →
      findFeature (featureMarkInProgress s fid).1 fid = some f' ∧
        f'.in_progress = true ∧ f'.passes = false) ∧
    ((¬ ∃ f', (featureMarkInProgress s fid).2 = LockResult.ok f') →
      (featureMarkInProgress s fid).1 = s) := by
  cases hf : findFeature s fid with
  | none =>
    refine ⟨?_, ?_, ?_⟩
    · simp [featureMarkInProgress, hf]
    · simp [featureMarkInProgress, hf]
    · intro; simp [featureMarkInProgress, hf]
  | some f =>
    have hid : (f.id == fid) = true := by
      simp [findFeature_some_id hf]
    by_cases hp : f.passes = true
    · refine ⟨?_, ?_, ?_⟩
      · simp [featureMarkInProgress, hf, hp]
      · simp [featureMarkInProgress, hf, hp]
      · intro; simp [featureMarkInProgress, hf, hp]
    · by_cases hip : f.in_progress = true
      · refine ⟨?_, ?_, ?_⟩
        · simp [featureMarkInProgress, hf, hp, hip]
        · simp [featureMarkInProgress, hf, hp, hip]
        · intro; simp [featureMarkInProgress, hf, hp, hip]
      · have hp' : f.passes = false := by simpa using hp
        have hip' : f.in_progress = false := by simpa using hip
        refine ⟨?_, ?_, ?_⟩
        · simp only [featureMarkInProgress, hf, hp', hip']
          simp only [Bool.false_eq_true, if_false]
          exact ⟨fun _ => ⟨f, rfl, hp', hip'⟩, fun _ => ⟨_, rfl⟩⟩
        · intro f' hok
          simp only [featureMarkInProgress, hf, hp', hip',
            Bool.false_eq_true, if_false, LockResult.ok.injEq] at hok ⊢
          subst hok
          rw [findFeature_updateFeature s fid fid
              (fun g => { g with in_progress := true }) (fun g => rfl), hf]
          simp [findFeature_some_id hf, hp']
        · intro hno
          exfalso
          apply hno
          simp [featureMarkInProgress, hf, hp', hip']

/-- C4 instantiated: locking the pending priority-1 feature of `w1Store`
succeeds and stores `in_progress=true`. -/
theorem lock_succeeds_iff_unlocked_pending_witness :
    ((featureMarkInProgress w1Store 2).2 =
      LockResult.ok { w1Feat with in_progress := true }) ∧
    (findFeature (featureMarkInProgress w1Store 2).1 2 =
      some { w1Feat with in_progress := true } ∧
      ({ w1Feat with in_progress := true }).in_progress = true ∧
      ({ w1Feat with in_progress := true }).passes = false) :=
  ⟨by decide,
   (lock_succeeds_iff_unlocked_pending w1Store 2).2.1
     { w1Feat with in_progress := true } (by decide)⟩

/-! ### Helper lemmas: the table-wide priority maximum -/

theorem foldl_max_bounds (l : List Int) (a : Int) :
    a ≤ l.foldl max a ∧ ∀ x ∈ l, x ≤ l.foldl max a := by
  induction l generalizing a with
  | nil => simp
  | cons b l ih =>
    obtain ⟨h₁, h₂⟩ := ih (max a b)
    simp only [List.foldl_cons]
    refine ⟨le_trans (le_max_left a b) h₁, ?_⟩
    intro x hx
    rcases List.mem_cons.mp hx with hx | hx
    · subst hx; exact le_trans (le_max_right a x) h₁
    · exact h₂ x hx

theorem foldl_max_mem (l : List Int) (a : Int) :
    l.foldl max a = a ∨ l.foldl max a ∈ l := by
  induction l generalizing a with
  | nil => simp
  | cons b l ih =>
    rcases ih (max a b) with h | h
    · rcases max_choice a b with hm | hm <;> rw [List.foldl_cons, h, hm]
      · exact Or.inl rfl
      · exact Or.inr (List.mem_cons_self b l)
    · exact Or.inr (List.mem_cons_of_mem b h)

theorem listMax_spec {l : List Int} {m : Int} (h : listMax l = some m) :
    (∀ x ∈ l, x ≤ m) ∧ m ∈ l := by
  cases l with
  | nil => simp [listMax] at h
  | cons a l =>
    simp only [listMax, Option.some.injEq] at h
    subst h
    obtain ⟨h₁, h₂⟩ := foldl_max_bounds l a
    constructor
    · intro x hx
      rcases List.mem_cons.mp hx with hx | hx
      · exact hx ▸ h₁
      · exact h₂ x hx
    · rcases foldl_max_mem l a with h | h
      · rw [h]; exact List.mem_cons_self a l
      · exact List.mem_cons_of_mem a h

theorem listMax_isSome {l : List Int} (h : l ≠ []) : ∃ m, listMax l = some m := by
  cases l with
  | nil => exact absurd rfl h
  | cons a l => exact ⟨l.foldl max a, rfl⟩

/-! ### C9: `feature_skip` -/

/-- C9.  Skipping a passing feature is rejected with the store unchanged;
otherwise the feature's priority becomes `max(priority) + 1` over the whole
table, its `in_progress` flag is cleared, and no feature is deleted. -/
theorem skip_rejected_iff_passing (s : FStore) (fid : Nat) (f : Feature)
    (hf : findFeature s fid = some f) :
    (f.passes = true → featureSkip s fid = (s, SkipResult.alreadyPassing)) ∧
    (f.passes = false →
      ∃ m, maxPriority s = some m ∧
        (∀ g ∈ s.features, g.priority ≤ m) ∧
        (∃ g ∈ s.features, g.priority = m) ∧
        findFeature (featureSkip s fid).1 fid =
          some { f with priority := m + 1, in_progress := false } ∧
        (featureSkip s fid).2 = SkipResult.ok f.priority (m + 1) ∧
        ∀ g ∈ s.features, g.id ≠ fid → g ∈ (featureSkip s fid).1.features) := by
  constructor
  · intro hp
    simp [featureSkip, hf, hp]
  · intro hp
    have hne : s.features.map (fun g => g.priority) ≠ [] := by
      simp only [ne_eq, List.map_eq_nil_iff]
      intro hnil
      have := findFeature_mem hf
      rw [hnil] at this
      exact absurd this (List.not_mem_nil f)
    obtain ⟨m, hm⟩ := listMax_isSome hne
    obtain ⟨hle, hmem⟩ := listMax_spec hm
    have hmp : maxPriority s = some m := hm
    refine ⟨m, hmp, ?_, ?_, ?_, ?_, ?_⟩
    · intro g hg
      exact hle g.priority (List.mem_map.mpr ⟨g, hg, rfl⟩)
    · obtain ⟨g, hg, hgp⟩ := List.mem_map.mp hmem
      exact ⟨g, hg, hgp⟩
    · simp only [featureSkip, hf, hp, Bool.false_eq_true, if_false, hmp]
      rw [findFeature_updateFeature s fid fid
          (fun g => { g with priority := m + 1, in_progress := false })
          (fun g => rfl), hf]
      simp [findFeature_some_id hf, hp]
    · simp [featureSkip, hf, hp, hmp]
    · intro g hg hgne
      simp only [featureSkip, hf, hp, Bool.false_eq_true, if_false, hmp]
      have := @mem_updateFeature_intro s fid
        (fun g => { g with priority := m + 1, in_progress := false }) g hg
      rwa [if_neg (by simpa using hgne)] at this

/-- C9 instantiated: skipping the pending priority-1 feature of `w1Store`
moves it to priority `max+1 = 4` and clears `in_progress`. -/
theorem skip_rejected_iff_passing_witness :
    ∃ m, maxPriority w1Store = some m ∧
      (∀ g ∈ w1Store.features, g.priority ≤ m) ∧
      (∃ g ∈ w1Store.features, g.priority = m) ∧
      findFeature (featureSkip w1Store 2).1 2 =
        some { w1Feat with priority := m + 1, in_progress := false } ∧
      (featureSkip w1Store 2).2 = SkipResult.ok w1Feat.priority (m + 1) ∧
      ∀ g ∈ w1Store.features, g.id ≠ 2 → g ∈ (featureSkip w1Store 2).1.features :=
  (skip_rejected_iff_passing w1Store 2 w1Feat (by decide)).2 (by decide)

/-! ### C5: `feature_decompose` error handling -/

/-- C5.  `feature_decompose` is rejected — leaving the store exactly as it
was, with no partial priority shift and no children inserted — when the parent
is missing, already passing, already decomposed, or fewer than 2 sub-features
are supplied; every non-ok reply leaves the store in its pre-call state. -/
theorem decompose_rejection_is_atomic (s : FStore) (fid : Nat)
    (subs : List SubFeatureItem) :
    ((featureDecompose s fid subs).2.isOk = false →
      (featureDecompose s fid subs).1 = s) ∧
    (findFeature s fid = none →
      featureDecompose s fid subs = (s, DecomposeResult.notFound)) ∧
    (∀ f, findFeature s fid = some f → f.passes = true →
      featureDecompose s fid subs = (s, DecomposeResult.alreadyPassing)) ∧
    (∀ f, findFeature s fid = some f → f.passes = false →
      f.is_decomposed = true →
      featureDecompose s fid subs = (s, DecomposeResult.alreadyDecomposed)) ∧
    (∀ f, findFeature s fid = some f → f.passes = false →
      f.is_decomposed = false → subs.length < 2 →
      featureDecompose s fid subs = (s, DecomposeResult.tooFewSubFeatures)) := by
  refine ⟨?_, ?_, ?_, ?_, ?_⟩
  · intro hnok
    cases hf : findFeature s fid with
    | none => simp [featureDecompose, hf]
    | some f =>
      by_cases hp : f.passes = true
      · simp [featureDecompose, hf, hp]
      · by_cases hd : f.is_decomposed = true
        · simp [featureDecompose, hf, hp, hd]
        · by_cases hn : subs.length < 2
          · simp [featureDecompose, hf, hp, hd, hn]
          · by_cases he : subs.any (fun sf => sf.steps.isEmpty) = true
            · simp [featureDecompose, hf, hp, hd, hn, he]
            · exfalso
              simp only [featureDecompose, hf, Bool.not_eq_true] at hnok
              rw [Bool.not_eq_true] at hp hd he
              simp [hp, hd, hn, he, DecomposeResult.isOk] at hnok
  · intro hf; simp [featureDecompose, hf]
  · intro f hf hp; simp [featureDecompose, hf, hp]
  · intro f hf hp hd; simp [featureDecompose, hf, hp, hd]
  · intro f hf hp hd hn; simp [featureDecompose, hf, hp, hd, hn]

/-- C5 instantiated: decomposing a parent that already passes is rejected and
the store is unchanged. -/
theorem decompose_rejection_is_atomic_witness :
    featureDecompose w7Store 1 w2Subs = (w7Store, DecomposeResult.alreadyPassing) ∧
    (featureDecompose w7Store 1 w2Subs).1 = w7Store :=
  ⟨(decompose_rejection_is_atomic w7Store 1 w2Subs).2.2.1 w7Feat (by decide)
     (by decide),
   (decompose_rejection_is_atomic w7Store 1 w2Subs).1 (by decide)⟩

/-! ### Helper lemmas: the attempt counter -/

theorem find?_consP {α : Type} {p : α → Bool} {a : α} {l : List α}
    (h : p a = true) : (a :: l).find? p = some a :=
  List.find?_cons_of_pos l h

theorem find?_consN {α : Type} {p : α → Bool} {a : α} {l : List α}
    (h : p a = false) : (a :: l).find? p = l.find? p :=
  List.find?_cons_of_neg l (by simp [h])

theorem any_eq_isSome_find? (p : Nat × Nat → Bool) (l : List (Nat × Nat)) :
    l.any p = (l.find? p).isSome := by
  induction l with
  | nil => rfl
  | cons a l ih =>
    cases ha : p a
    · rw [List.any_cons, ha, find?_consN ha, Bool.false_or]
      exact ih
    · rw [List.any_cons, ha, find?_consP ha, Bool.true_or, Option.isSome_some]

theorem bump_find (c : AttemptCounter) (fid : Nat) :
    (bumpAttempt c fid).find? (fun e => e.1 == fid) =
      some (fid,
        (((c.find? (fun e => e.1 == fid)).map (fun e => e.2)).getD 0) + 1) := by
  induction c with
  | nil => simp [bumpAttempt, find?_consP]
  | cons a c ih =>
    obtain ⟨k, v⟩ := a
    by_cases hk : k = fid
    · subst hk
      rw [show bumpAttempt ((k, v) :: c) k = (k, v + 1) :: c by
            simp [bumpAttempt],
          find?_consP (by simp), find?_consP (by simp)]
      simp
    · rw [show bumpAttempt ((k, v) :: c) fid = (k, v) :: bumpAttempt c fid by
            simp [bumpAttempt, hk],
          find?_consN (by simpa using hk), find?_consN (by simpa using hk)]
      exact ih

theorem recordAttempt_reaches_threshold (threshold fid : Nat) :
    ∀ c : AttemptCounter, (∀ e ∈ c, ¬ threshold ≤ e.2) →
      (((c.find? (fun e => e.1 == fid)).map (fun e => e.2)).getD 0) + 1 =
        threshold →
      getStuckFeatureId threshold (bumpAttempt c fid) = some fid := by
  intro c
  induction c with
  | nil =>
    intro _ hcount
    simp only [List.find?_nil, Option.map_none', Option.getD_none,
      Nat.zero_add] at hcount
    subst hcount
    simp only [bumpAttempt, getStuckFeatureId]
    rw [find?_consP (by simp)]
    simp
  | cons a c ih =>
    obtain ⟨k, v⟩ := a
    intro hnone hcount
    by_cases hk : k = fid
    · subst hk
      rw [find?_consP (by simp)] at hcount
      simp only [Option.map_some', Option.getD_some] at hcount
      rw [show bumpAttempt ((k, v) :: c) k = (k, v + 1) :: c by
            simp [bumpAttempt]]
      simp only [getStuckFeatureId]
      rw [find?_consP (by simp [hcount])]
      simp
    · rw [find?_consN (by simpa using hk)] at hcount
      have hhead : ¬ threshold ≤ v := hnone (k, v) (List.mem_cons_self _ _)
      rw [show bumpAttempt ((k, v) :: c) fid = (k, v) :: bumpAttempt c fid by
            simp [bumpAttempt, hk]]
      simp only [getStuckFeatureId]
      rw [find?_consN (by simpa using hhead)]
      exact ih (fun e he => hnone e (List.mem_cons_of_mem _ he)) hcount

theorem getStuck_first_found (threshold : Nat) (c₁ : List (Nat × Nat))
    (e : Nat × Nat) (c₂ : List (Nat × Nat))
    (hlt : ∀ x ∈ c₁, x.2 < threshold) (he : threshold ≤ e.2) :
    getStuckFeatureId threshold (c₁ ++ e :: c₂) = some e.1 := by
  induction c₁ with
  | nil =>
    simp only [List.nil_append, getStuckFeatureId]
    rw [find?_consP (by simpa using he)]
    simp
  | cons x c₁ ih =>
    have hx : ¬ threshold ≤ x.2 := Nat.not_le.mpr (hlt x (List.mem_cons_self _ _))
    simp only [List.cons_append, getStuckFeatureId]
    rw [find?_consN (by simpa using hx)]
    exact ih (fun y hy => hlt y (List.mem_cons_of_mem _ hy))

/-! ### C8: stuck detection -/

/-- C8.  Stuck detection fires exactly when some counter entry has reached the
threshold (default `MAX_FEATURE_ATTEMPTS = 3`): counts of `threshold - 1`
never trigger it, an attempt that brings a count to exactly the threshold
makes `get_stuck_feature_id` return that feature, and with several qualifying
entries the first in counter iteration order wins. -/
theorem stuck_detection_at_threshold (threshold : Nat) (c : AttemptCounter) :
    MAX_FEATURE_ATTEMPTS = 3 ∧
    (checkStuckDetection threshold c = true ↔ ∃ e ∈ c, threshold ≤ e.2) ∧
    (checkStuckDetection threshold c = (getStuckFeatureId threshold c).isSome) ∧
    ((∀ e ∈ c, e.2 < threshold) → getStuckFeatureId threshold c = none) ∧
    (∀ c₁ e c₂, c = c₁ ++ e :: c₂ → (∀ x ∈ c₁, x.2 < threshold) →
      threshold ≤ e.2 → getStuckFeatureId threshold c = some e.1) ∧
    (∀ fid, getStuckFeatureId threshold c = none →
      (recordFeatureAttempt c fid).2 = threshold →
      getStuckFeatureId threshold (recordFeatureAttempt c fid).1 = some fid) := by
  refine ⟨rfl, ?_, ?_, ?_, ?_, ?_⟩
  · simp [checkStuckDetection, List.any_eq_true]
  · simp [checkStuckDetection, getStuckFeatureId, any_eq_isSome_find?]
  · intro h
    simp only [getStuckFeatureId, Option.map_eq_none', List.find?_eq_none]
    intro e he
    have := h e he
    simp only [decide_eq_true_eq]
    omega
  · intro c₁ e c₂ hc hlt he
    subst hc
    exact getStuck_first_found threshold c₁ e c₂ hlt he
  · intro fid hnone hcount
    have hn : ∀ e ∈ c, ¬ threshold ≤ e.2 := by
      simp only [getStuckFeatureId, Option.map_eq_none',
        List.find?_eq_none] at hnone
      intro e he
      simpa using hnone e he
    have hc : (((c.find? (fun e => e.1 == fid)).map (fun e => e.2)).getD 0) + 1 =
        threshold := by
      simp only [recordFeatureAttempt, bump_find, Option.map_some',
        Option.getD_some] at hcount
      exact hcount
    have hgoal := recordAttempt_reaches_threshold threshold fid c hn hc
    simpa [recordFeatureAttempt] using hgoal

/-- C8 instantiated at the default threshold 3: with feature 7 at 2 attempts
nothing is stuck, and one more attempt makes feature 7 stuck. -/
theorem stuck_detection_at_threshold_witness :
    checkStuckDetection MAX_FEATURE_ATTEMPTS w8Counter = false ∧
    getStuckFeatureId MAX_FEATURE_ATTEMPTS
      (recordFeatureAttempt w8Counter 7).1 = some 7 :=
  ⟨by decide,
   (stuck_detection_at_threshold MAX_FEATURE_ATTEMPTS w8Counter).2.2.2.2.2 7
     (by decide) (by decide)⟩

/-! ### C3: two concurrent `feature_mark_in_progress` calls -/

/-- C3 evaluated at the failing interleaving.  `feature_mark_in_progress` is
an ORM read and Python-side checks followed by a separate write and commit —
not a single atomic check-and-set.  On a feature with `passes=false`,
`in_progress=false`, scheduling the two reads before the two writes makes BOTH
callers take the success path, contradicting the claim that exactly one of two
concurrent callers succeeds. -/
theorem lock_read_then_write_both_succeed :
    (findFeature w3Store 1 = some (mkTestFeature 1 1 false false false none)) ∧
    (runLockSchedule 1 [true, false, true, false]
        ⟨w3Store, LockPhase.start, LockPhase.start⟩).a =
      LockPhase.returned true ∧
    (runLockSchedule 1 [true, false, true, false]
        ⟨w3Store, LockPhase.start, LockPhase.start⟩).b =
      LockPhase.returned true := by decide

/-! ### Helper lemmas: `feature_mark_passing` and the parent cascade -/

theorem setPassing_id (g : Feature) : (setPassing g).id = g.id := rfl

theorem setPassing_eq_self {g : Feature} (h1 : g.passes = true)
    (h2 : g.in_progress = false) : setPassing g = g := by
  cases g
  simp only [setPassing]
  simp_all

theorem updateFeature_congr_self (s : FStore) (fid : Nat) (u : Feature → Feature)
    (h : ∀ g ∈ s.features, g.id = fid → u g = g) : updateFeature s fid u = s := by
  unfold updateFeature
  have hmap : s.features.map (fun g => if g.id == fid then u g else g) =
      s.features := by
    calc s.features.map (fun g => if g.id == fid then u g else g)
        = s.features.map id := by
          apply List.map_congr_left
          intro g hg
          by_cases hgid : (g.id == fid) = true
          · rw [if_pos hgid, h g hg (by simpa using hgid)]; rfl
          · rw [if_neg (by simpa using hgid)]; rfl
      _ = s.features := List.map_id s.features
  rw [hmap]

theorem cascade_cases (s : FStore) (pid : Nat) :
    parentCascade s pid = s ∨
      parentCascade s pid = updateFeature s pid setPassing := by
  unfold parentCascade
  cases findFeature s pid with
  | none => exact Or.inl rfl
  | some parent =>
    dsimp only
    by_cases hd : parent.is_decomposed = true
    · rw [if_pos hd]
      by_cases hc : ((s.features.filter
          (fun g => g.parent_id == some pid)).all (fun g => g.passes) &&
            !parent.passes) = true
      · rw [if_pos hc]; exact Or.inr rfl
      · rw [if_neg hc]; exact Or.inl rfl
    · rw [if_neg hd]; exact Or.inl rfl

theorem cascade_noop_of_passes {s : FStore} {pid : Nat} {p : Feature}
    (h : findFeature s pid = some p) (hp : p.passes = true) :
    parentCascade s pid = s := by
  unfold parentCascade
  rw [h]
  dsimp only
  by_cases hd : p.is_decomposed = true
  · rw [if_pos hd, if_neg (by simp [hp])]
  · rw [if_neg hd]

theorem cascade_fires {s : FStore} {pid : Nat} {p : Feature}
    (h : findFeature s pid = some p) (hd : p.is_decomposed = true)
    (hp : p.passes = false)
    (hall : (s.features.filter (fun g => g.parent_id == some pid)).all
      (fun g => g.passes) = true) :
    parentCascade s pid = updateFeature s pid setPassing := by
  unfold parentCascade
  rw [h]
  dsimp only
  rw [if_pos hd, if_pos (by simp [hall, hp])]

theorem cascade_skips {s : FStore} {pid : Nat} {p : Feature}
    (h : findFeature s pid = some p) (hd : p.is_decomposed = true)
    (hall : (s.features.filter (fun g => g.parent_id == some pid)).all
      (fun g => g.passes) = false) :
    parentCascade s pid = s := by
  unfold parentCascade
  rw [h]
  dsimp only
  rw [if_pos hd, if_neg (by simp [hall])]

theorem entries_good_after_setPassing (s : FStore) (fid : Nat) :
    ∀ g ∈ (updateFeature s fid setPassing).features, g.id = fid →
      g.passes = true ∧ g.in_progress = false := by
  intro g hg hgid
  obtain ⟨g₀, _, heq⟩ := mem_updateFeature_elim hg
  by_cases h₀ : (g₀.id == fid) = true
  · rw [if_pos h₀] at heq
    subst heq
    exact ⟨rfl, rfl⟩
  · rw [if_neg h₀] at heq
    subst heq
    exact absurd hgid (by simpa using h₀)

theorem entries_good_after_cascade {s : FStore} {fid : Nat} (pid : Nat)
    (h : ∀ g ∈ s.features, g.id = fid → g.passes = true ∧ g.in_progress = false) :
    ∀ g ∈ (parentCascade s pid).features, g.id = fid →
      g.passes = true ∧ g.in_progress = false := by
  rcases cascade_cases s pid with hc | hc <;> rw [hc]
  · exact h
  · intro g hg hgid
    obtain ⟨g₀, hg₀, heq⟩ := mem_updateFeature_elim hg
    by_cases h₀ : (g₀.id == pid) = true
    · rw [if_pos h₀] at heq
      subst heq
      exact ⟨rfl, rfl⟩
    · rw [if_neg h₀] at heq
      subst heq
      exact h _ hg₀ hgid

theorem featureMarkPassing_not_found {s : FStore} {fid : Nat}
    (hf : findFeature s fid = none) :
    featureMarkPassing s fid = (s, BasicResult.notFound) := by
  unfold featureMarkPassing
  rw [hf]

theorem featureMarkPassing_no_parent {s : FStore} {fid : Nat} {f : Feature}
    (hf : findFeature s fid = some f) (hpar : f.parent_id = none) :
    featureMarkPassing s fid =
      (updateFeature s fid setPassing, BasicResult.ok) := by
  unfold featureMarkPassing
  rw [hf]
  dsimp only
  rw [hpar]

theorem featureMarkPassing_with_parent {s : FStore} {fid : Nat} {f : Feature}
    {pid : Nat} (hf : findFeature s fid = some f)
    (hpar : f.parent_id = some pid) :
    featureMarkPassing s fid =
      (parentCascade (updateFeature s fid setPassing) pid, BasicResult.ok) := by
  unfold featureMarkPassing
  rw [hf]
  dsimp only
  rw [hpar]

theorem markPassing_entries_good {s : FStore} {fid : Nat} {f : Feature}
    (hf : findFeature s fid = some f) :
    ∀ g ∈ (featureMarkPassing s fid).1.features, g.id = fid →
      g.passes = true ∧ g.in_progress = false := by
  cases hpar : f.parent_id with
  | none =>
    rw [featureMarkPassing_no_parent hf hpar]
    exact entries_good_after_setPassing s fid
  | some pid =>
    rw [featureMarkPassing_with_parent hf hpar]
    exact entries_good_after_cascade pid (entries_good_after_setPassing s fid)

theorem findFeature_markPassing {s : FStore} {fid : Nat} {f : Feature}
    (hf : findFeature s fid = some f) :
    ∃ f', findFeature (featureMarkPassing s fid).1 fid = some f' ∧
      f'.passes = true ∧ f'.in_progress = false ∧
      f'.parent_id = f.parent_id := by
  have hs1 : findFeature (updateFeature s fid setPassing) fid =
      some (setPassing f) := by
    rw [findFeature_updateFeature s fid fid setPassing setPassing_id, hf]
    simp [findFeature_some_id hf]
  cases hpar : f.parent_id with
  | none =>
    rw [featureMarkPassing_no_parent hf hpar]
    exact ⟨setPassing f, hs1, rfl, rfl, hpar ▸ rfl⟩
  | some pid =>
    rw [featureMarkPassing_with_parent hf hpar]
    rcases cascade_cases (updateFeature s fid setPassing) pid with hc | hc <;>
      rw [hc] <;> dsimp only
    · exact ⟨setPassing f, hs1, rfl, rfl, hpar ▸ rfl⟩
    · rw [findFeature_updateFeature _ fid pid setPassing setPassing_id, hs1]
      by_cases hpp : f.id = pid
      · refine ⟨setPassing (setPassing f), by simp [setPassing, hpp], rfl, rfl, ?_⟩
        exact hpar
      · refine ⟨setPassing f, by simp [setPassing, hpp], rfl, rfl, ?_⟩
        exact hpar

theorem parentCascade_idem (s : FStore) (pid : Nat) :
    parentCascade (parentCascade s pid) pid = parentCascade s pid := by
  cases hfp : findFeature s pid with
  | none =>
    have h : parentCascade s pid = s := by
      unfold parentCascade; rw [hfp]
    rw [h, h]
  | some parent =>
    by_cases hd : parent.is_decomposed = true
    · by_cases hpp : parent.passes = true
      · have h := cascade_noop_of_passes hfp hpp
        rw [h, h]
      · have hpp' : parent.passes = false := by simpa using hpp
        by_cases hall : ((s.features.filter
            (fun g => g.parent_id == some pid)).all (fun g => g.passes)) = true
        · have h := cascade_fires hfp hd hpp' hall
          rw [h]
          have hpid : (parent.id == pid) = true := by
            simp [findFeature_some_id hfp]
          have hfind : findFeature (updateFeature s pid setPassing) pid =
              some (setPassing parent) := by
            rw [findFeature_updateFeature s pid pid setPassing setPassing_id,
              hfp]
            simp [findFeature_some_id hfp]
          exact cascade_noop_of_passes hfind rfl
        · have h := cascade_skips hfp hd (by simpa using hall)
          rw [h, h]
    · have h : parentCascade s pid = s := by
        unfold parentCascade
        rw [hfp]
        dsimp only
        rw [if_neg hd]
      rw [h, h]

/-! ### C6: parent-completion cascade -/

/-- C6.  Marking a child of a decomposed parent passing checks all features
with that `parent_id`: when all pass the parent becomes `passes=true` with
`in_progress=false`, when some child still fails the parent row is untouched;
the standalone `feature_check_parent_completion` is a no-op on an
already-passing parent and marks the parent exactly as the cascade does. -/
theorem cascade_marks_parent_iff_all_children_pass :
    (∀ s fid pid f parent,
      findFeature s fid = some f → f.parent_id = some pid → fid ≠ pid →
      findFeature s pid = some parent → parent.is_decomposed = true →
      parent.passes = false →
      (∀ g ∈ s.features, g.parent_id = some pid → g.id ≠ fid →
        g.passes = true) →
      findFeature (featureMarkPassing s fid).1 pid = some (setPassing parent)) ∧
    (∀ s fid pid f parent g,
      findFeature s fid = some f → f.parent_id = some pid → fid ≠ pid →
      findFeature s pid = some parent → parent.is_decomposed = true →
      g ∈ s.features → g.parent_id = some pid → g.id ≠ fid →
      g.passes = false →
      findFeature (featureMarkPassing s fid).1 pid = some parent) ∧
    (∀ s pid parent, findFeature s pid = some parent → parent.passes = true →
      (featureCheckParentCompletion s pid).1 = s) ∧
    (∀ s pid parent, findFeature s pid = some parent →
      parent.is_decomposed = true → parent.passes = false →
      (∃ g ∈ s.features, g.parent_id = some pid) →
      (∀ g ∈ s.features, g.parent_id = some pid → g.passes = true) →
      findFeature (featureCheckParentCompletion s pid).1 pid =
        some (setPassing parent)) := by
  have hfs1 : ∀ (s : FStore) (fid pid : Nat) (parent : Feature),
      fid ≠ pid → findFeature s pid = some parent →
      findFeature (updateFeature s fid setPassing) pid = some parent := by
    intro s fid pid parent hne hfp
    rw [findFeature_updateFeature s pid fid setPassing setPassing_id, hfp]
    have hpid : parent.id = pid := findFeature_some_id hfp
    simp [hpid, Ne.symm hne]
  refine ⟨?_, ?_, ?_, ?_⟩
  · intro s fid pid f parent hf hpar hne hfp hd hp hall
    rw [featureMarkPassing_with_parent hf hpar]
    dsimp only
    have hs1 := hfs1 s fid pid parent hne hfp
    have hallb : ((updateFeature s fid setPassing).features.filter
        (fun g => g.parent_id == some pid)).all (fun g => g.passes) = true := by
      rw [List.all_eq_true]
      intro g' hg'
      rw [List.mem_filter] at hg'
      obtain ⟨hg'mem, hg'par⟩ := hg'
      obtain ⟨g₀, hg₀, heq⟩ := mem_updateFeature_elim hg'mem
      by_cases h₀ : (g₀.id == fid) = true
      · rw [if_pos h₀] at heq; subst heq; rfl
      · rw [if_neg h₀] at heq
        subst heq
        exact hall _ hg₀ (by simpa using hg'par) (by simpa using h₀)
    rw [cascade_fires hs1 hd hp hallb,
      findFeature_updateFeature _ pid pid setPassing setPassing_id, hs1]
    simp [findFeature_some_id hs1]
  · intro s fid pid f parent g hf hpar hne hfp hd hg hgpar hgne hgfail
    rw [featureMarkPassing_with_parent hf hpar]
    dsimp only
    have hs1 := hfs1 s fid pid parent hne hfp
    have hgmem : g ∈ (updateFeature s fid setPassing).features := by
      have := @mem_updateFeature_intro s fid setPassing g hg
      rwa [if_neg (by simpa using hgne)] at this
    have hallf : ((updateFeature s fid setPassing).features.filter
        (fun g => g.parent_id == some pid)).all (fun g => g.passes) = false := by
      apply Bool.eq_false_iff.mpr
      intro hall
      rw [List.all_eq_true] at hall
      have := hall g (List.mem_filter.mpr ⟨hgmem, by simp [hgpar]⟩)
      rw [hgfail] at this
      exact Bool.false_ne_true this
    rw [cascade_skips hs1 hd hallf]
    exact hs1
  · intro s pid parent hfp hp
    unfold featureCheckParentCompletion
    rw [hfp]
    dsimp only
    split
    · rfl
    · split
      · rfl
      · rw [if_neg (by simp [hp])]
  · intro s pid parent hfp hd hp hsub hall
    unfold featureCheckParentCompletion
    rw [hfp]
    dsimp only
    rw [if_neg (by simp [hd])]
    obtain ⟨g, hg, hgpar⟩ := hsub
    have hne : s.features.filter (fun g => g.parent_id == some pid) ≠ [] := by
      intro hnil
      have : g ∈ s.features.filter (fun g => g.parent_id == some pid) :=
        List.mem_filter.mpr ⟨hg, by simp [hgpar]⟩
      rw [hnil] at this
      exact absurd this (List.not_mem_nil g)
    rw [if_neg (by simpa using hne)]
    have hallb : (s.features.filter (fun g => g.parent_id == some pid)).all
        (fun g => g.passes) = true := by
      rw [List.all_eq_true]
      intro g' hg'
      rw [List.mem_filter] at hg'
      exact hall g' hg'.1 (by simpa using hg'.2)
    rw [if_pos (by simp [hallb, hp])]
    dsimp only
    rw [findFeature_updateFeature s pid pid setPassing setPassing_id, hfp]
    simp [findFeature_some_id hfp]

/-- C6 instantiated: in `w6Store` (decomposed parent 1, passing child 2,
pending child 3), marking child 3 passing marks the parent passing. -/
theorem cascade_marks_parent_iff_all_children_pass_witness :
    findFeature (featureMarkPassing w6Store 3).1 1 = some (setPassing w6Parent) :=
  cascade_marks_parent_iff_all_children_pass.1 w6Store 3 1 w6Child w6Parent
    (by decide) (by decide) (by decide) (by decide) (by decide) (by decide)
    (by decide)

/-! ### C10: `feature_mark_passing` has no precondition beyond existence -/

/-- C10.  `feature_mark_passing` succeeds on every existing feature — with no
check of `passes`, `in_progress` or `is_decomposed` — leaving the row with
`passes=true` and `in_progress=false`; calling it twice yields the same store
as calling it once; on a missing id it reports an error and changes nothing. -/
theorem markPassing_total_and_idempotent :
    (∀ s fid f, findFeature s fid = some f →
      (featureMarkPassing s fid).2 = BasicResult.ok ∧
      ∃ f', findFeature (featureMarkPassing s fid).1 fid = some f' ∧
        f'.passes = true ∧ f'.in_progress = false) ∧
    (∀ s fid, findFeature s fid = none →
      featureMarkPassing s fid = (s, BasicResult.notFound)) ∧
    (∀ s fid, (featureMarkPassing (featureMarkPassing s fid).1 fid).1 =
      (featureMarkPassing s fid).1) := by
  refine ⟨?_, ?_, ?_⟩
  · intro s fid f hf
    constructor
    · cases hpar : f.parent_id with
      | none => rw [featureMarkPassing_no_parent hf hpar]
      | some pid => rw [featureMarkPassing_with_parent hf hpar]
    · obtain ⟨f', h₁, h₂, h₃, _⟩ := findFeature_markPassing hf
      exact ⟨f', h₁, h₂, h₃⟩
  · intro s fid hf
    exact featureMarkPassing_not_found hf
  · intro s fid
    cases hf : findFeature s fid with
    | none =>
      rw [featureMarkPassing_not_found hf]
      dsimp only
      rw [featureMarkPassing_not_found hf]
    | some f =>
      obtain ⟨f₂, hf₂, hp₂, hip₂, hpar₂⟩ := findFeature_markPassing hf
      have hgood := markPassing_entries_good hf
      have hupd : updateFeature (featureMarkPassing s fid).1 fid setPassing =
          (featureMarkPassing s fid).1 := by
        apply updateFeature_congr_self
        intro g hg hgid
        obtain ⟨hgp, hgip⟩ := hgood g hg hgid
        exact setPassing_eq_self hgp hgip
      cases hpar : f.parent_id with
      | none =>
        have hpar₂' : f₂.parent_id = none := by rw [hpar₂, hpar]
        rw [featureMarkPassing_no_parent hf₂ hpar₂']
        dsimp only
        exact hupd
      | some pid =>
        have hpar₂' : f₂.parent_id = some pid := by rw [hpar₂, hpar]
        rw [featureMarkPassing_with_parent hf₂ hpar₂']
        dsimp only
        rw [hupd]
        rw [featureMarkPassing_with_parent hf hpar]
        dsimp only
        exact parentCascade_idem (updateFeature s fid setPassing) pid

/-- C10 instantiated: marking the already-passing child 2 of `w6Store`
passing again succeeds, keeps `passes=true`, and a repeated call yields the
same store. -/
theorem markPassing_total_and_idempotent_witness :
    ((featureMarkPassing w6Store 2).2 = BasicResult.ok ∧
      ∃ f', findFeature (featureMarkPassing w6Store 2).1 2 = some f' ∧
        f'.passes = true ∧ f'.in_progress = false) ∧
    (featureMarkPassing (featureMarkPassing w6Store 2).1 2).1 =
      (featureMarkPassing w6Store 2).1 :=
  ⟨markPassing_total_and_idempotent.1 w6Store 2
     (mkTestFeature 2 2 true false false (some 1)) (by decide),
   markPassing_total_and_idempotent.2.2 w6Store 2⟩

/-! ### Helper lemmas: the rows inserted by `feature_decompose` -/

theorem mkChildren_length (parent : Feature) (startId : Nat) :
    ∀ (l : List SubFeatureItem) (i : Nat),
      (mkChildren parent startId i l).length = l.length := by
  intro l
  induction l with
  | nil => intro i; rfl
  | cons sf rest ih =>
    intro i
    simp only [mkChildren, List.length_cons, ih (i + 1)]

theorem mkChildren_spec (parent : Feature) (startId : Nat) :
    ∀ (l : List SubFeatureItem) (i j : Nat), j < l.length →
      ∃ c ∈ mkChildren parent startId i l,
        c.id = startId + i + j ∧
        c.priority = parent.priority + 1 + (i : Int) + (j : Int) ∧
        c.parent_id = some parent.id ∧ c.category = parent.category ∧
        c.source = "decomposed" ∧ c.passes = false := by
  intro l
  induction l with
  | nil => intro i j hj; simp at hj
  | cons sf rest ih =>
    intro i j hj
    cases j with
    | zero =>
      refine ⟨_, List.mem_cons_self _ _, ?_, ?_, rfl, rfl, rfl, rfl⟩
      · simp
      · simp
    | succ j' =>
      have hj' : j' < rest.length := by simpa using hj
      obtain ⟨c, hc, hcid, hcp, hcpar, hccat, hcsrc, hcpass⟩ :=
        ih (i + 1) j' hj'
      refine ⟨c, List.mem_cons_of_mem _ hc, ?_, ?_, hcpar, hccat, hcsrc, hcpass⟩
      · omega
      · rw [hcp]; push_cast; ring

theorem mkChildren_id_bounds (parent : Feature) (startId : Nat) :
    ∀ (l : List SubFeatureItem) (i : Nat),
      ∀ c ∈ mkChildren parent startId i l,
        startId + i ≤ c.id ∧ c.id < startId + i + l.length := by
  intro l
  induction l with
  | nil => intro i c hc; simp [mkChildren] at hc
  | cons sf rest ih =>
    intro i c hc
    rcases List.mem_cons.mp hc with hc | hc
    · subst hc; simp
    · have := ih (i + 1) c hc
      simp only [List.length_cons]
      omega

theorem mkChildren_ids (parent : Feature) (startId : Nat) :
    ∀ (l : List SubFeatureItem) (i : Nat),
      (mkChildren parent startId i l).map (fun c => c.id) =
        List.range' (startId + i) l.length := by
  intro l
  induction l with
  | nil => intro i; rfl
  | cons sf rest ih =>
    intro i
    simp only [mkChildren, List.map_cons, List.length_cons, List.range'_succ,
      ih (i + 1)]
    rw [Nat.add_assoc]

theorem mkBulkFeatures_ids :
    ∀ (l : List FeatureCreateItem) (startPriority : Int) (startId : Nat),
      (mkBulkFeatures startPriority startId l).map (fun c => c.id) =
        List.range' startId l.length := by
  intro l
  induction l with
  | nil => intro sp si; rfl
  | cons it rest ih =>
    intro sp si
    simp only [mkBulkFeatures, List.map_cons, List.length_cons,
      List.range'_succ, ih (sp + 1) (si + 1)]

/-- The success path of `feature_decompose`, as one equation. -/
theorem featureDecompose_ok_eq {s : FStore} {fid : Nat}
    {subs : List SubFeatureItem} {parent : Feature}
    (hf : findFeature s fid = some parent) (hp : parent.passes = false)
    (hd : parent.is_decomposed = false) (hn : 2 ≤ subs.length)
    (hsteps : subs.any (fun sf => sf.steps.isEmpty) = false) :
    featureDecompose s fid subs =
      (⟨((s.features.map (fun g =>
            if decide (parent.priority < g.priority) && g.id != fid then
              { g with priority := g.priority + (subs.length : Int) }
            else g)).map (fun g =>
            if g.id == fid then
              { g with is_decomposed := true, in_progress := false,
                       attempt_count := 0 }
            else g)) ++ mkChildren parent s.nextId 0 subs,
        s.nextId + subs.length⟩,
       DecomposeResult.ok
         ((mkChildren parent s.nextId 0 subs).map (fun c => c.id))) := by
  unfold featureDecompose
  rw [hf]
  dsimp only
  rw [if_neg (by simp [hp]), if_neg (by simp [hd]), if_neg (by omega),
    if_neg (by simp [hsteps])]

/-! ### C2: `feature_decompose`, accepted decomposition -/

/-- C2.  An accepted decomposition of a parent at priority `P` with `n`
children (`2 ≤ n ≤ 5`) inserts the children at priorities `P+1 .. P+n` with
`parent_id = parent.id`, the parent's category, `source = "decomposed"` and
`passes = false`; every other feature with priority `> P` moves up by exactly
`n` while the rest keep their priority; all pre-existing ids survive and the
row count grows by exactly `n`; and the parent ends with
`is_decomposed = true`, `in_progress = false` and `attempt_count = 0`. -/
theorem decompose_shifts_and_inserts_children (s : FStore) (fid : Nat)
    (subs : List SubFeatureItem) (parent : Feature)
    (hf : findFeature s fid = some parent) (hp : parent.passes = false)
    (hd : parent.is_decomposed = false) (hn2 : 2 ≤ subs.length)
    (hn5 : subs.length ≤ 5) (hsteps : ∀ sf ∈ subs, sf.steps ≠ []) :
    (featureDecompose s fid subs).2.isOk = true ∧
    (∀ j, j < subs.length →
      ∃ c ∈ (featureDecompose s fid subs).1.features,
        c.id = s.nextId + j ∧
        c.priority = parent.priority + 1 + (j : Int) ∧
        c.parent_id = some fid ∧ c.category = parent.category ∧
        c.source = "decomposed" ∧ c.passes = false) ∧
    (∀ g ∈ s.features, g.id ≠ fid →
      (parent.priority < g.priority →
        { g with priority := g.priority + (subs.length : Int) } ∈
          (featureDecompose s fid subs).1.features) ∧
      (¬ parent.priority < g.priority →
        g ∈ (featureDecompose s fid subs).1.features)) ∧
    ((featureDecompose s fid subs).1.features.length =
      s.features.length + subs.length) ∧
    (∀ g ∈ s.features, ∃ g' ∈ (featureDecompose s fid subs).1.features,
      g'.id = g.id) ∧
    findFeature (featureDecompose s fid subs).1 fid =
      some { parent with is_decomposed := true, in_progress := false,
                         attempt_count := 0 } := by
  have hany : subs.any (fun sf => sf.steps.isEmpty) = false := by
    rw [← Bool.not_eq_true, List.any_eq_true]
    rintro ⟨sf, hsf, hemp⟩
    exact hsteps sf hsf (by simpa using hemp)
  have heq := featureDecompose_ok_eq hf hp hd hn2 hany
  have hpid : parent.id = fid := findFeature_some_id hf
  rw [heq]
  dsimp only
  have hF1id : ∀ g : Feature,
      (if decide (parent.priority < g.priority) && g.id != fid then
        { g with priority := g.priority + (subs.length : Int) }
      else g).id = g.id := fun g => by split <;> rfl
  have hF2id : ∀ g : Feature,
      (if g.id == fid then
        { g with is_decomposed := true, in_progress := false,
                 attempt_count := 0 }
      else g).id = g.id := fun g => by split <;> rfl
  refine ⟨rfl, ?_, ?_, ?_, ?_, ?_⟩
  · intro j hj
    obtain ⟨c, hc, hcid, hcp, hcpar, hccat, hcsrc, hcpass⟩ :=
      mkChildren_spec parent s.nextId subs 0 j hj
    refine ⟨c, List.mem_append_right _ hc, ?_, ?_, ?_, hccat, hcsrc, hcpass⟩
    · omega
    · rw [hcp]; push_cast; ring
    · rw [hcpar, hpid]
  · intro g hg hgne
    constructor
    · intro hlt
      apply List.mem_append_left
      apply List.mem_map.mpr
      refine ⟨{ g with priority := g.priority + (subs.length : Int) },
        List.mem_map.mpr ⟨g, hg, by rw [if_pos (by simp [hlt, hgne])]⟩, ?_⟩
      rw [if_neg (by simpa using hgne)]
    · intro hlt
      apply List.mem_append_left
      apply List.mem_map.mpr
      refine ⟨g, List.mem_map.mpr ⟨g, hg, by rw [if_neg (by simp [hlt])]⟩, ?_⟩
      rw [if_neg (by simpa using hgne)]
  · simp [List.length_append, List.length_map, mkChildren_length]
  · intro g hg
    refine ⟨_, List.mem_append_left _ (List.mem_map.mpr
      ⟨_, List.mem_map.mpr ⟨g, hg, rfl⟩, rfl⟩), ?_⟩
    rw [hF2id, hF1id]
  · unfold findFeature
    apply find?_append_left
    rw [find?_id_map _ _ hF2id fid, find?_id_map _ _ hF1id fid]
    have : s.features.find? (fun f => f.id == fid) = some parent := hf
    rw [this]
    simp [hpid]

/-- C2 instantiated: decomposing the priority-2 parent of `w2Store` into two
sub-features shifts the priority-3 feature to 5, puts children at 3 and 4,
and marks the parent decomposed. -/
theorem decompose_shifts_and_inserts_children_witness :
    (featureDecompose w2Store 2 w2Subs).2.isOk = true ∧
    (∀ j, j < w2Subs.length →
      ∃ c ∈ (featureDecompose w2Store 2 w2Subs).1.features,
        c.id = w2Store.nextId + j ∧
        c.priority = w2Parent.priority + 1 + (j : Int) ∧
        c.parent_id = some 2 ∧ c.category = w2Parent.category ∧
        c.source = "decomposed" ∧ c.passes = false) ∧
    (∀ g ∈ w2Store.features, g.id ≠ 2 →
      (w2Parent.priority < g.priority →
        { g with priority := g.priority + (w2Subs.length : Int) } ∈
          (featureDecompose w2Store 2 w2Subs).1.features) ∧
      (¬ w2Parent.priority < g.priority →
        g ∈ (featureDecompose w2Store 2 w2Subs).1.features)) ∧
    ((featureDecompose w2Store 2 w2Subs).1.features.length =
      w2Store.features.length + w2Subs.length) ∧
    (∀ g ∈ w2Store.features,
      ∃ g' ∈ (featureDecompose w2Store 2 w2Subs).1.features, g'.id = g.id) ∧
    findFeature (featureDecompose w2Store 2 w2Subs).1 2 =
      some { w2Parent with is_decomposed := true, in_progress := false,
                           attempt_count := 0 } :=
  decompose_shifts_and_inserts_children w2Store 2 w2Subs w2Parent (by decide)
    (by decide) (by decide) (by decide) (by decide) (by decide)

/-! ### Helper lemmas: shapes of the post-states of each operation -/

theorem ids_map_eq {l : List Feature} {F : Feature → Feature}
    (hF : ∀ g, (F g).id = g.id) :
    (l.map F).map (fun f => f.id) = l.map (fun f => f.id) := by
  rw [List.map_map]
  apply List.map_congr_left
  intro g _
  simp [Function.comp, hF]

theorem lock_fst_cases (s : FStore) (fid : Nat) :
    (featureMarkInProgress s fid).1 = s ∨
      (featureMarkInProgress s fid).1 =
        updateFeature s fid (fun g => { g with in_progress := true }) := by
  unfold featureMarkInProgress
  cases findFeature s fid with
  | none => exact Or.inl rfl
  | some f =>
    dsimp only
    by_cases hp : f.passes = true
    · rw [if_pos hp]; exact Or.inl rfl
    · rw [if_neg hp]
      by_cases hip : f.in_progress = true
      · rw [if_pos hip]; exact Or.inl rfl
      · rw [if_neg hip]; exact Or.inr rfl

theorem unlock_fst_cases (s : FStore) (fid : Nat) :
    (featureClearInProgress s fid).1 = s ∨
      (featureClearInProgress s fid).1 =
        updateFeature s fid (fun g => { g with in_progress := false }) := by
  unfold featureClearInProgress
  cases findFeature s fid with
  | none => exact Or.inl rfl
  | some f => exact Or.inr rfl

theorem skip_fst_cases (s : FStore) (fid : Nat) :
    (featureSkip s fid).1 = s ∨
      ∃ p, (featureSkip s fid).1 =
        updateFeature s fid
          (fun g => { g with priority := p, in_progress := false }) := by
  unfold featureSkip
  cases findFeature s fid with
  | none => exact Or.inl rfl
  | some f =>
    dsimp only
    by_cases hp : f.passes = true
    · rw [if_pos hp]; exact Or.inl rfl
    · rw [if_neg hp]; exact Or.inr ⟨_, rfl⟩

theorem requeue_fst_cases (s : FStore) (fid : Nat) :
    (requeueFeature s fid).1 = s ∨
      (requeueFeature s fid).1 =
        updateFeature s fid (fun g =>
          { g with passes := false, in_progress := false,
                   assigned_agent_id := none,
                   attempt_count := g.attempt_count + 1 }) := by
  unfold requeueFeature
  cases findFeature s fid with
  | none => exact Or.inl rfl
  | some f => exact Or.inr rfl

theorem markPassing_fst_cases (s : FStore) (fid : Nat) :
    (featureMarkPassing s fid).1 = s ∨
      (featureMarkPassing s fid).1 = updateFeature s fid setPassing ∨
      ∃ pid, (featureMarkPassing s fid).1 =
        parentCascade (updateFeature s fid setPassing) pid := by
  cases hf : findFeature s fid with
  | none => rw [featureMarkPassing_not_found hf]; exact Or.inl rfl
  | some f =>
    cases hpar : f.parent_id with
    | none =>
      rw [featureMarkPassing_no_parent hf hpar]
      exact Or.inr (Or.inl rfl)
    | some pid =>
      rw [featureMarkPassing_with_parent hf hpar]
      exact Or.inr (Or.inr ⟨pid, rfl⟩)

theorem featureDecompose_fst_cases (s : FStore) (fid : Nat)
    (subs : List SubFeatureItem) :
    (featureDecompose s fid subs).1 = s ∨
      ∃ parent, findFeature s fid = some parent ∧
        (featureDecompose s fid subs).1 =
          ⟨((s.features.map (fun g =>
              if decide (parent.priority < g.priority) && g.id != fid then
                { g with priority := g.priority + (subs.length : Int) }
              else g)).map (fun g =>
              if g.id == fid then
                { g with is_decomposed := true, in_progress := false,
                         attempt_count := 0 }
              else g)) ++ mkChildren parent s.nextId 0 subs,
            s.nextId + subs.length⟩ := by
  cases hf : findFeature s fid with
  | none => left; simp [featureDecompose, hf]
  | some parent =>
    by_cases hp : parent.passes = true
    · left; simp [featureDecompose, hf, hp]
    · by_cases hd : parent.is_decomposed = true
      · left; simp [featureDecompose, hf, hp, hd]
      · by_cases hn : subs.length < 2
        · left; simp [featureDecompose, hf, hp, hd, hn]
        · by_cases he : subs.any (fun sf => sf.steps.isEmpty) = true
          · left; simp [featureDecompose, hf, hp, hd, hn, he]
          · right
            refine ⟨parent, rfl, ?_⟩
            rw [featureDecompose_ok_eq hf (by simpa using hp)
              (by simpa using hd) (by omega) (by simpa using he)]

theorem bulkCreate_fst_shape (s : FStore) (items : List FeatureCreateItem) :
    ∃ sp, featureCreateBulk s items =
      ⟨s.features ++ mkBulkFeatures sp s.nextId items,
        s.nextId + items.length⟩ := by
  unfold featureCreateBulk
  exact ⟨_, rfl⟩

/-! ### Helper lemmas: the queue invariant for a passed feature -/

theorem WfStore_append {l₁ l₂ : List Feature} {nid n : Nat}
    (h1 : (l₁.map (fun f => f.id)).Nodup) (h1b : ∀ f ∈ l₁, f.id < nid)
    (h2 : l₂.map (fun f => f.id) = List.range' nid n) :
    WfStore ⟨l₁ ++ l₂, nid + n⟩ := by
  constructor
  · rw [List.map_append, List.nodup_append]
    refine ⟨h1, ?_, ?_⟩
    · rw [h2]; exact List.nodup_range' _ _
    · intro a ha hb
      rw [h2] at hb
      obtain ⟨hge, _⟩ := List.mem_range'_1.mp hb
      obtain ⟨f, hf, hfa⟩ := List.mem_map.mp ha
      exact absurd (hfa ▸ h1b f hf) (by omega)
  · intro f hf
    show f.id < nid + n
    rcases List.mem_append.mp hf with hf | hf
    · have := h1b f hf; omega
    · have : f.id ∈ l₂.map (fun f => f.id) := List.mem_map.mpr ⟨f, hf, rfl⟩
      rw [h2] at this
      obtain ⟨_, hlt⟩ := List.mem_range'_1.mp this
      simpa using hlt

theorem inv_step_update {s : FStore} {fid fid' : Nat} {u : Feature → Feature}
    (hw : WfStore s) (hfid : fid < s.nextId)
    (hp : ∀ g ∈ s.features, g.id = fid → g.passes = true)
    (huid : ∀ g, (u g).id = g.id)
    (hupass : (∀ g, g.passes = true → (u g).passes = true) ∨ fid' ≠ fid) :
    WfStore (updateFeature s fid' u) ∧
      fid < (updateFeature s fid' u).nextId ∧
      ∀ g ∈ (updateFeature s fid' u).features, g.id = fid →
        g.passes = true := by
  refine ⟨⟨?_, ?_⟩, hfid, ?_⟩
  · rw [updateFeature_ids s fid' u huid]
    exact hw.1
  · intro g hg
    obtain ⟨g₀, hg₀, heq⟩ := mem_updateFeature_elim hg
    have hb := hw.2 g₀ hg₀
    rw [updateFeature_nextId]
    by_cases h₀ : (g₀.id == fid') = true
    · rw [if_pos h₀] at heq; rw [heq, huid]; exact hb
    · rw [if_neg h₀] at heq; rw [heq]; exact hb
  · intro g hg hgid
    obtain ⟨g₀, hg₀, heq⟩ := mem_updateFeature_elim hg
    by_cases h₀ : (g₀.id == fid') = true
    · rw [if_pos h₀] at heq
      subst heq
      rw [huid] at hgid
      rcases hupass with hmono | hne
      · exact hmono g₀ (hp g₀ hg₀ hgid)
      · have h₀' : g₀.id = fid' := by simpa using h₀
        exact absurd (by omega) hne
    · rw [if_neg h₀] at heq
      subst heq
      exact hp _ hg₀ hgid

theorem applyOp_inv (fid : Nat) (s : FStore) (op : Op)
    (hw : WfStore s) (hfid : fid < s.nextId)
    (hp : ∀ g ∈ s.features, g.id = fid → g.passes = true)
    (hop : op ≠ Op.requeue fid) :
    WfStore (applyOp s op) ∧ fid < (applyOp s op).nextId ∧
      ∀ g ∈ (applyOp s op).features, g.id = fid → g.passes = true := by
  cases op with
  | dequeue => exact ⟨hw, hfid, hp⟩
  | lock fid' =>
    dsimp only [applyOp]
    rcases lock_fst_cases s fid' with h | h <;> rw [h]
    · exact ⟨hw, hfid, hp⟩
    · exact inv_step_update hw hfid hp (fun g => rfl) (Or.inl (fun g hg => hg))
  | unlock fid' =>
    dsimp only [applyOp]
    rcases unlock_fst_cases s fid' with h | h <;> rw [h]
    · exact ⟨hw, hfid, hp⟩
    · exact inv_step_update hw hfid hp (fun g => rfl) (Or.inl (fun g hg => hg))
  | skip fid' =>
    dsimp only [applyOp]
    rcases skip_fst_cases s fid' with h | ⟨p, h⟩ <;> rw [h]
    · exact ⟨hw, hfid, hp⟩
    · exact inv_step_update hw hfid hp (fun g => rfl) (Or.inl (fun g hg => hg))
  | markPassing fid' =>
    dsimp only [applyOp]
    rcases markPassing_fst_cases s fid' with h | h | ⟨pid, h⟩ <;> rw [h]
    · exact ⟨hw, hfid, hp⟩
    · exact inv_step_update hw hfid hp setPassing_id (Or.inl (fun g _ => rfl))
    · obtain ⟨hw1, hfid1, hp1⟩ :=
        inv_step_update hw hfid hp setPassing_id (Or.inl (fun g _ => rfl))
      rcases cascade_cases (updateFeature s fid' setPassing) pid with hc | hc <;>
        rw [hc]
      · exact ⟨hw1, hfid1, hp1⟩
      · exact inv_step_update hw1 hfid1 hp1 setPassing_id
          (Or.inl (fun g _ => rfl))
  | requeue fid' =>
    have hne : fid' ≠ fid := fun h => hop (by rw [h])
    dsimp only [applyOp]
    rcases requeue_fst_cases s fid' with h | h <;> rw [h]
    · exact ⟨hw, hfid, hp⟩
    · exact inv_step_update hw hfid hp (fun g => rfl) (Or.inr hne)
  | decompose fid' subs =>
    dsimp only [applyOp]
    rcases featureDecompose_fst_cases s fid' subs with h | ⟨parent, hfp, h⟩ <;>
      rw [h]
    · exact ⟨hw, hfid, hp⟩
    · have hF1id : ∀ g : Feature,
          ((fun g => if decide (parent.priority < g.priority) && g.id != fid'
            then { g with priority := g.priority + (subs.length : Int) }
            else g) g).id = g.id := fun g => by dsimp only; split <;> rfl
      have hF2id : ∀ g : Feature,
          ((fun g => if g.id == fid' then
            { g with is_decomposed := true, in_progress := false,
                     attempt_count := 0 }
            else g) g).id = g.id := fun g => by dsimp only; split <;> rfl
      have hF1p : ∀ g : Feature,
          ((fun g => if decide (parent.priority < g.priority) && g.id != fid'
            then { g with priority := g.priority + (subs.length : Int) }
            else g) g).passes = g.passes := fun g => by dsimp only; split <;> rfl
      have hF2p : ∀ g : Feature,
          ((fun g => if g.id == fid' then
            { g with is_decomposed := true, in_progress := false,
                     attempt_count := 0 }
            else g) g).passes = g.passes := fun g => by dsimp only; split <;> rfl
      refine ⟨?_, ?_, ?_⟩
      · apply WfStore_append
        · rw [ids_map_eq hF2id, ids_map_eq hF1id]
          exact hw.1
        · intro f hf
          obtain ⟨g₁, hg₁, hfe⟩ := List.mem_map.mp hf
          obtain ⟨g₀, hg₀, hge⟩ := List.mem_map.mp hg₁
          rw [← hfe, hF2id, ← hge, hF1id]
          exact hw.2 g₀ hg₀
        · rw [mkChildren_ids]
          simp
      · show fid < s.nextId + subs.length
        omega
      · intro g hg hgid
        rcases List.mem_append.mp hg with hg | hg
        · obtain ⟨g₁, hg₁, hfe⟩ := List.mem_map.mp hg
          obtain ⟨g₀, hg₀, hge⟩ := List.mem_map.mp hg₁
          rw [← hfe, hF2p, ← hge, hF1p]
          apply hp g₀ hg₀
          rw [← hfe, hF2id, ← hge, hF1id] at hgid
          exact hgid
        · have := (mkChildren_id_bounds parent s.nextId subs 0 g hg).1
          omega
  | bulkCreate items =>
    dsimp only [applyOp]
    obtain ⟨sp, h⟩ := bulkCreate_fst_shape s items
    rw [h]
    refine ⟨WfStore_append hw.1 hw.2 (mkBulkFeatures_ids items sp s.nextId),
      ?_, ?_⟩
    · show fid < s.nextId + items.length
      omega
    · intro g hg hgid
      rcases List.mem_append.mp hg with hg | hg
      · exact hp g hg hgid
      · have : g.id ∈ (mkBulkFeatures sp s.nextId items).map (fun f => f.id) :=
          List.mem_map.mpr ⟨g, hg, rfl⟩
        rw [mkBulkFeatures_ids] at this
        obtain ⟨hge, _⟩ := List.mem_range'_1.mp this
        omega

theorem runOps_inv (fid : Nat) :
    ∀ (pre : List Op) (s : FStore), WfStore s → fid < s.nextId →
      (∀ g ∈ s.features, g.id = fid → g.passes = true) →
      Op.requeue fid ∉ pre →
      WfStore (runOps s pre) ∧ fid < (runOps s pre).nextId ∧
        ∀ g ∈ (runOps s pre).features, g.id = fid → g.passes = true := by
  intro pre
  induction pre with
  | nil => intro s hw hfid hp _; exact ⟨hw, hfid, hp⟩
  | cons op ops ih =>
    intro s hw hfid hp hreq
    have hop : op ≠ Op.requeue fid := fun h =>
      hreq (h ▸ List.mem_cons_self _ _)
    obtain ⟨hw', hfid', hp'⟩ := applyOp_inv fid s op hw hfid hp hop
    exact ih (applyOp s op) hw' hfid' hp'
      (fun h => hreq (List.mem_cons_of_mem _ h))

theorem getNext_found_pending {s : FStore} {g : Feature}
    (h : featureGetNext s = GetNextResult.found g) :
    g ∈ s.features ∧ g.passes = false := by
  unfold featureGetNext at h
  cases hm : pickMin (s.features.filter eligible) with
  | none =>
    rw [hm] at h
    cases hfp : s.features.filter isPending with
    | nil => rw [hfp] at h; simp at h
    | cons a l => rw [hfp] at h; simp at h
  | some f =>
    rw [hm] at h
    simp only [Option.some.injEq, GetNextResult.found.injEq] at h
    subst h
    have := pickMin_mem hm
    rw [List.mem_filter] at this
    refine ⟨this.1, ?_⟩
    have := this.2
    simp only [eligible, Bool.and_eq_true, Bool.not_eq_true'] at this
    exact this.1.1

/-! ### C7: a passing feature is never dequeued again -/

/-- C7 (amended).  Over any sequence of queue-API operations (`dequeue`,
`lock`, `unlock`, `skip`, `mark_passing`, `decompose`, `bulk_create`,
`requeue`) that contains no `requeue` of feature `f` itself, once
`f.passes = true` holds, `feature_get_next` never returns `f` again in any
later state.  (The unrestricted claim is refuted by
`requeue_makes_passed_feature_dequeued_again`: the router's requeue endpoint
deliberately clears `passes`.) -/
theorem passed_never_dequeued_without_requeue (s : FStore) (f : Feature)
    (ops : List Op) (hw : WfStore s) (hf : f ∈ s.features)
    (hp : f.passes = true) (hreq : Op.requeue f.id ∉ ops) :
    ∀ pre suf, ops = pre ++ suf →
      ∀ g, featureGetNext (runOps s pre) = GetNextResult.found g →
        g.id ≠ f.id := by
  intro pre suf hsplit g hfound hgid
  have hpall : ∀ g' ∈ s.features, g'.id = f.id → g'.passes = true := by
    intro g' hg' hid
    have : g' = f :=
      List.inj_on_of_nodup_map hw.1 hg' hf hid
    rw [this]
    exact hp
  have hfid : f.id < s.nextId := hw.2 f hf
  have hpre : Op.requeue f.id ∉ pre := fun hmem =>
    hreq (hsplit ▸ List.mem_append_left _ hmem)
  obtain ⟨_, _, hp'⟩ := runOps_inv f.id pre s hw hfid hpall hpre
  obtain ⟨hgmem, hgpass⟩ := getNext_found_pending hfound
  have := hp' g hgmem hgid
  rw [hgpass] at this
  exact Bool.false_ne_true this

/-- C7 amended claim instantiated: in `w7bStore` (feature 1 passed, feature 2
pending), after the requeue-free sequence `[dequeue]` the dequeued feature is
feature 2, whose id differs from the passed feature's id. -/
theorem passed_never_dequeued_without_requeue_witness :
    featureGetNext (runOps w7bStore [Op.dequeue]) =
      GetNextResult.found (mkTestFeature 2 2 false false false none) ∧
    (mkTestFeature 2 2 false false false none).id ≠ w7Feat.id :=
  ⟨by decide,
   passed_never_dequeued_without_requeue w7bStore w7Feat [Op.dequeue]
     (by decide) (by decide) (by decide) (by decide) [Op.dequeue] [] rfl
     (mkTestFeature 2 2 false false false none) (by decide)⟩

/-- C7 as frozen is false: `requeue` is among the listed operations, and the
router's requeue endpoint clears `passes`, after which `feature_get_next`
returns the very same feature id again. -/
theorem requeue_makes_passed_feature_dequeued_again :
    w7Feat ∈ w7Store.features ∧ w7Feat.passes = true ∧
    featureGetNext (runOps w7Store [Op.requeue w7Feat.id]) =
      GetNextResult.found
        { w7Feat with passes := false, attempt_count := 1 } ∧
    ({ w7Feat with passes := false, attempt_count := 1 }).id = w7Feat.id := by
  decide

end Nexus
